import Mathlib

/-!
Verification development for `class/real_time_data_analysis.py`, a script that
polls a cryptocurrency ticker API, computes mean / median / standard deviation
of the `buy` prices, and keeps a rolling per-currency history of recent buy
prices.

Modelling choices:
* Python dicts preserve insertion order and have unique keys, so a `Snapshot`
  (parsed ticker JSON) and the `History` map are ordered association lists.
* Prices are modelled as rationals.  `np.std` returns the square root of the
  population variance; since the square root is determined by its radicand we
  track the radicand (`var` field) exactly, in ℚ.
* Fallible operations (`details['buy']` raising `KeyError`, `response.json()`
  raising a decode error) are modelled with `Except String`.
* Console output and `time.sleep` are modelled as an `Event` trace.
-/

namespace RTDA

/-- Decidable equality of `Except` results, so that concrete runs of the
fallible operations can be checked by `decide`. -/
instance {ε α : Type} [DecidableEq ε] [DecidableEq α] : DecidableEq (Except ε α) := fun x y =>
  match x, y with
  | .ok a, .ok b =>
    if h : a = b then .isTrue (by rw [h]) else .isFalse (by simp [h])
  | .ok _, .error _ => .isFalse (by simp)
  | .error _, .ok _ => .isFalse (by simp)
  | .error e, .error f =>
    if h : e = f then .isTrue (by rw [h]) else .isFalse (by simp [h])

/-- A currency record from the ticker JSON: named numeric fields
(`buy`, `sell`, `last`, ...). Fields other than `buy` are ignored by the
program. -/
abbrev Rec : Type := List (String × ℚ)

/-- One poll's parsed ticker data: currency identifier → record. -/
abbrev Snapshot : Type := List (String × Rec)

/-- The rolling history map: currency identifier → buy prices, oldest first. -/
abbrev History : Type := List (String × List ℚ)

/-- Field access on a record, `details[k]` returning `none` for a missing key. -/
def rlookup (k : String) : Rec → Option ℚ
  | [] => none
  | (k', v) :: t => if k' = k then some v else rlookup k t

/-- Key lookup in a snapshot, `real_time_data[c]`. -/
def slookup (c : String) : Snapshot → Option Rec
  | [] => none
  | (c', r) :: t => if c' = c then some r else slookup c t

/-- Key lookup in the history map, `prices_over_time[c]`. -/
def hlookup (c : String) : History → Option (List ℚ)
  | [] => none
  | (c', l) :: t => if c' = c then some l else hlookup c t

/-- Extraction of `(currency, details['buy'])` pairs from a snapshot, failing
with a `KeyError` when some record lacks the `buy` field — as both
`calculate_statistics` (line 13) and `track_price_changes` (line 36) do. -/
def getBuys : Snapshot → Except String (List (String × ℚ))
  | [] => .ok []
  | (c, r) :: t =>
    match rlookup "buy" r with
    | none => .error "KeyError buy"
    | some b => (getBuys t).map fun ps => (c, b) :: ps

/-- The `(currency, buy)` pairs of the records that do carry a `buy` field. -/
def buyPairs (s : Snapshot) : List (String × ℚ) :=
  s.filterMap fun e => (rlookup "buy" e.2).map fun b => (e.1, b)

/-- Wellformedness of a snapshot: every record carries a `buy` field. -/
def HasBuy (s : Snapshot) : Prop :=
  ∀ e ∈ s, (rlookup "buy" e.2).isSome

instance (s : Snapshot) : Decidable (HasBuy s) := by
  unfold HasBuy; infer_instance

/-- The buy price a snapshot reports for currency `c`, when present. -/
def buyOf (c : String) (s : Snapshot) : Option ℚ :=
  (slookup c s).bind (rlookup "buy")

/-- Arithmetic mean as `np.mean` computes it: sum divided by length. -/
def npMean (l : List ℚ) : ℚ := l.sum / l.length

/-- The midpoint of a sequence: its middle element for odd length, the average
of the two central elements for even length. -/
def middleOf (s : List ℚ) : ℚ :=
  if s.length % 2 = 1 then s.getD (s.length / 2) 0
  else (s.getD (s.length / 2 - 1) 0 + s.getD (s.length / 2) 0) / 2

/-- Median as `np.median` computes it: sort ascending, take the midpoint. -/
def npMedian (l : List ℚ) : ℚ := middleOf (l.insertionSort (· ≤ ·))

/-- The radicand of `np.std` with its default `ddof=0`: the mean of the
squared deviations from the mean (`np.std` returns its square root). -/
def npVar (l : List ℚ) : ℚ := npMean (l.map fun x => (x - npMean l) ^ 2)

/-- The three statistics the program reports.  `var` is the square of the
reported standard deviation (`np.std` prints `Real.sqrt var`, which is
determined by `var`). -/
structure Stats where
  mean : ℚ
  median : ℚ
  var : ℚ
deriving DecidableEq, Repr

/-- Embedding of `calculate_statistics` (lines 11–22): extract the `buy`
prices (a `KeyError` if some record lacks the field), then compute the
`np.mean`, `np.median` and `np.std` statistics. -/
def calculate_statistics (snap : Snapshot) : Except String Stats :=
  (getBuys snap).map fun ps =>
    let bs := ps.map Prod.snd
    { mean := npMean bs, median := npMedian bs, var := npVar bs }

/-- The fixed history window, `history_size = 5` (line 38). -/
def history_size : ℕ := 5

/-- Python's `l[-n:]`: the last `min n l.length` elements of `l`. -/
def lastN (n : ℕ) (l : List ℚ) : List ℚ := l.drop (l.length - n)

/-- One iteration of the tracking loop (lines 33–36): ensure the currency has
an entry (a fresh key is inserted at the end, as in a Python dict), then
append the price to it. -/
def appendPrice (h : History) (c : String) (p : ℚ) : History :=
  match hlookup c h with
  | none => h ++ [(c, [p])]
  | some _ => h.map fun e => if e.1 = c then (e.1, e.2 ++ [p]) else e

/-- The whole tracking loop over the snapshot's `(currency, buy)` pairs. -/
def addPrices (ps : List (String × ℚ)) (h : History) : History :=
  ps.foldl (fun h cp => appendPrice h cp.1 cp.2) h

/-- The truncation loop (lines 39–41): every entry of the map is cut down to
its last `history_size` elements. -/
def truncAll (h : History) : History :=
  h.map fun e => (e.1, lastN history_size e.2)

/-- Embedding of `track_price_changes` (lines 31–46): append each currency's
buy price to its history (a `KeyError` if a record lacks `buy`), then truncate
every tracked currency's history to the last `history_size` entries.  The
trend rendering (lines 44–46) only prints and is modelled in the event trace
of `pollStep`. -/
def track_price_changes (snap : Snapshot) (h : History) : Except String History :=
  (getBuys snap).map fun ps => truncAll (addPrices ps h)

/-- Feeding a list of snapshots to `track_price_changes` in order. -/
def runTrack : List Snapshot → History → Except String History
  | [], h => .ok h
  | s :: ss, h => do runTrack ss (← track_price_changes s h)

/-- Observable actions of one poll iteration, in order: the delimiter /
raw-data printing, the statistics report, the trend report, the error line of
the failure branch, and the `time.sleep` call. -/
inductive Event where
  | delim : Event
  | newData : Snapshot → Event
  | statsReport : Stats → Event
  | trendReport : History → Event
  | errorReport : ℕ → Event
  | slept : ℕ → Event
deriving DecidableEq, Repr

/-- An HTTP response: a status code, and the parsed JSON body (`none` models
a body that is not valid JSON, so that `response.json()` raises). The body is
only ever consulted when the status is 200. -/
structure Response where
  status : ℕ
  body : Option Snapshot
deriving Repr

/-- Embedding of one iteration of the `while True` loop of `poll_api`
(lines 55–73): on status 200 parse the body, print the data, compute the
statistics, update the history, print the trends and sleep 10 seconds; on any
other status print the status code — and, in the source, do NOT sleep.
Uncaught Python exceptions (JSON decode errors, `KeyError`) surface as
`Except.error`. -/
def pollStep (r : Response) (h : History) : Except String (History × List Event) :=
  if r.status = 200 then
    match r.body with
    | none => .error "JSONDecodeError"
    | some snap => do
      let st ← calculate_statistics snap
      let h' ← track_price_changes snap h
      .ok (h', [.delim, .newData snap, .delim, .statsReport st, .trendReport h', .slept 10])
  else
    .ok (h, [.errorReport r.status])

/-- Finitely many iterations of the polling loop, accumulating the event
trace; an uncaught exception aborts the whole run. -/
def runPoll : List Response → History → Except String (History × List Event)
  | [], h => .ok (h, [])
  | r :: rs, h => do
    let (h', evs) ← pollStep r h
    let (h'', evs') ← runPoll rs h'
    .ok (h'', evs ++ evs')

/-- The module-level `prices_over_time` dictionary (line 29), initialized
empty at import time. -/
def prices_over_time : History := []

/-- Program state distinguishing the module-level `prices_over_time` map
(line 29) from the map the same name denotes inside `poll_api` after the local
re-initialization on line 52, plus the event trace. -/
structure ProgState where
  module_prices : History
  local_prices : History
  events : List Event
deriving Repr

/-- One poll iteration at program level: `poll_api`'s body reads and writes
only the function-local map. -/
def pollStepProg (r : Response) (s : ProgState) : Except String ProgState :=
  (pollStep r s.local_prices).map fun p =>
    { s with local_prices := p.1, events := s.events ++ p.2 }

/-- Finitely many program-level iterations. -/
def runProg : List Response → ProgState → Except String ProgState
  | [], s => .ok s
  | r :: rs, s => do runProg rs (← pollStepProg r s)

/-- A run of `poll_api` from process start: the module map is `{}` (line 29)
and the local map is re-initialized to `{}` (line 52). -/
def runProgram (rs : List Response) : Except String ProgState :=
  runProg rs ⟨prices_over_time, [], []⟩

/-- All buy prices a list of snapshots reports for currency `c`, in
chronological order. -/
def allBuys (c : String) (snaps : List Snapshot) : List ℚ :=
  snaps.filterMap (buyOf c)

/-- Boundedness of the history map: every tracked sequence holds at most
`history_size` prices. -/
def BoundedHist (h : History) : Prop :=
  ∀ e ∈ h, e.2.length ≤ history_size

instance (h : History) : Decidable (BoundedHist h) := by
  unfold BoundedHist; infer_instance

/-! Basic reduction lemmas for the `Except` monad. -/

@[simp] theorem except_map_ok {ε α β : Type} (f : α → β) (a : α) :
    Except.map f (Except.ok a : Except ε α) = .ok (f a) := rfl

@[simp] theorem except_map_error {ε α β : Type} (f : α → β) (e : ε) :
    Except.map f (Except.error e : Except ε α) = .error e := rfl

@[simp] theorem except_ok_bind {ε α β : Type} (a : α) (f : α → Except ε β) :
    (Except.ok a : Except ε α) >>= f = f a := rfl

@[simp] theorem except_error_bind {ε α β : Type} (e : ε) (f : α → Except ε β) :
    (Except.error e : Except ε α) >>= f = .error e := rfl

@[simp] theorem except_ok_ne_error {ε α : Type} (a : α) (e : ε) :
    (Except.ok a : Except ε α) ≠ .error e := by simp

/-! Lemmas about lookup, extraction and the rolling window. -/

@[simp] theorem hlookup_nil (c : String) : hlookup c [] = none := rfl

@[simp] theorem hlookup_cons (c k : String) (v : List ℚ) (t : History) :
    hlookup c ((k, v) :: t) = if k = c then some v else hlookup c t := rfl

@[simp] theorem slookup_nil (c : String) : slookup c [] = none := rfl

@[simp] theorem slookup_cons (c k : String) (r : Rec) (t : Snapshot) :
    slookup c ((k, r) :: t) = if k = c then some r else slookup c t := rfl

@[simp] theorem rlookup_nil (k : String) : rlookup k [] = none := rfl

@[simp] theorem rlookup_cons (k k' : String) (v : ℚ) (t : Rec) :
    rlookup k ((k', v) :: t) = if k' = k then some v else rlookup k t := rfl

theorem getBuys_of_hasBuy {s : Snapshot} (h : HasBuy s) :
    getBuys s = .ok (buyPairs s) := by
  induction s with
  | nil => rfl
  | cons e t ih =>
    obtain ⟨b, hb⟩ := Option.isSome_iff_exists.mp (h e (List.mem_cons_self e t))
    have ht : HasBuy t := fun x hx => h x (List.mem_cons_of_mem e hx)
    simp [getBuys, buyPairs, hb, ih ht, List.filterMap_cons]

theorem buyPairs_fst {s : Snapshot} (h : HasBuy s) :
    (buyPairs s).map Prod.fst = s.map Prod.fst := by
  induction s with
  | nil => rfl
  | cons e t ih =>
    obtain ⟨b, hb⟩ := Option.isSome_iff_exists.mp (h e (List.mem_cons_self e t))
    have ht : HasBuy t := fun x hx => h x (List.mem_cons_of_mem e hx)
    simp [buyPairs, List.filterMap_cons, hb] at ih ⊢
    exact ih ht

theorem slookup_mem {c : String} {s : Snapshot} {r : Rec} (h : slookup c s = some r) :
    (c, r) ∈ s := by
  induction s with
  | nil => simp [slookup] at h
  | cons e t ih =>
    by_cases hc : e.1 = c
    · rw [show e = (e.1, e.2) from rfl, slookup, if_pos hc] at h
      injection h with h2
      subst hc
      rw [← h2]
      exact List.mem_cons_self e t
    · rw [show e = (e.1, e.2) from rfl, slookup, if_neg hc] at h
      exact List.mem_cons_of_mem _ (ih h)

theorem mem_buyPairs {c : String} {b : ℚ} {s : Snapshot} {r : Rec}
    (hm : (c, r) ∈ s) (hb : rlookup "buy" r = some b) : (c, b) ∈ buyPairs s := by
  rw [buyPairs, List.mem_filterMap]
  exact ⟨(c, r), hm, by simp [hb]⟩

theorem hlookup_append (c : String) (h₁ h₂ : History) :
    hlookup c (h₁ ++ h₂) = (hlookup c h₁).or (hlookup c h₂) := by
  induction h₁ with
  | nil => simp [hlookup]
  | cons e t ih =>
    obtain ⟨k, v⟩ := e
    by_cases hc : k = c <;> simp [hlookup, hc, ih]

theorem hlookup_map_append (c c' : String) (p : ℚ) (h : History) :
    hlookup c (h.map fun e => if e.1 = c' then (e.1, e.2 ++ [p]) else e)
      = if c = c' then (hlookup c h).map (· ++ [p]) else hlookup c h := by
  induction h with
  | nil => simp [hlookup]
  | cons e t ih =>
    obtain ⟨k, v⟩ := e
    by_cases hc' : k = c'
    · subst hc'
      by_cases hc : k = c
      · subst hc
        simp [ih]
      · have hck : ¬c = k := fun hh => hc hh.symm
        simp [hc, hck, ih]
    · by_cases hc : k = c
      · subst hc
        simp [hc', ih]
      · have hck : ¬c = k := fun hh => hc hh.symm
        simp [hc', hc, hck, ih]

theorem hlookup_appendPrice_self (h : History) (c : String) (p : ℚ) :
    hlookup c (appendPrice h c p) = some ((hlookup c h).getD [] ++ [p]) := by
  rw [appendPrice]
  cases hl : hlookup c h with
  | none => simp [hlookup_append, hl, hlookup]
  | some l => simp [hlookup_map_append, hl]

theorem hlookup_appendPrice_ne {c c' : String} (h : History) (p : ℚ) (hne : c ≠ c') :
    hlookup c (appendPrice h c' p) = hlookup c h := by
  rw [appendPrice]
  cases hl : hlookup c' h with
  | none =>
    rw [hlookup_append]
    have : hlookup c [(c', [p])] = none := by simp [hlookup, Ne.symm hne]
    rw [this]
    cases hlookup c h <;> rfl
  | some l => simp [hlookup_map_append, hne]

theorem hlookup_truncAll (c : String) (h : History) :
    hlookup c (truncAll h) = (hlookup c h).map (lastN history_size) := by
  induction h with
  | nil => simp [truncAll, hlookup]
  | cons e t ih =>
    obtain ⟨k, v⟩ := e
    by_cases hc : k = c
    · simp [truncAll, hlookup, hc]
    · simp only [truncAll, List.map_cons, hlookup, if_neg hc] at ih ⊢
      exact ih

theorem lastN_length (n : ℕ) (l : List ℚ) : (lastN n l).length = min n l.length := by
  simp [lastN]
  omega

theorem lastN_of_le {n : ℕ} {l : List ℚ} (h : l.length ≤ n) : lastN n l = l := by
  rw [lastN, show l.length - n = 0 by omega, List.drop_zero]

theorem lastN_append_left (n : ℕ) (l m : List ℚ) :
    lastN n (lastN n l ++ m) = lastN n (l ++ m) := by
  rcases Nat.le_total n l.length with hn | hn
  · unfold lastN
    simp only [List.drop_append_eq_append_drop, List.drop_drop, List.length_drop,
      List.length_append]
    congr 1 <;> congr 1 <;> omega
  · rw [lastN_of_le hn]

theorem getLast?_drop_of_lt {l : List ℚ} {d : ℕ} (h : d < l.length) :
    (l.drop d).getLast? = l.getLast? := by
  conv_rhs => rw [← List.take_append_drop d l]
  rw [List.getLast?_append_of_ne_nil]
  intro hnil
  rw [← List.length_eq_zero] at hnil
  simp at hnil
  omega

theorem getLast?_lastN {n : ℕ} {l : List ℚ} (hn : 1 ≤ n) (hl : l ≠ []) :
    (lastN n l).getLast? = l.getLast? := by
  have : 0 < l.length := List.length_pos.mpr hl
  exact getLast?_drop_of_lt (by omega)

theorem slookup_eq_none_iff {c : String} {s : Snapshot} :
    slookup c s = none ↔ c ∉ s.map Prod.fst := by
  induction s with
  | nil => simp
  | cons e t ih =>
    obtain ⟨k, r⟩ := e
    by_cases hc : k = c
    · subst hc
      simp
    · rw [slookup_cons, if_neg hc, List.map_cons, List.mem_cons, ih]
      constructor
      · intro hn hor
        rcases hor with h1 | h2
        · exact hc h1.symm
        · exact hn h2
      · intro hn h2
        exact hn (Or.inr h2)

theorem hlookup_mem {c : String} {h : History} {l : List ℚ}
    (hl : hlookup c h = some l) : (c, l) ∈ h := by
  induction h with
  | nil => simp at hl
  | cons e t ih =>
    obtain ⟨k, v⟩ := e
    by_cases hc : k = c
    · subst hc
      simp at hl
      simp [hl]
    · simp [hc] at hl
      exact List.mem_cons_of_mem _ (ih hl)

theorem boundedHist_lookup {h : History} (hb : BoundedHist h) {c : String} {l : List ℚ}
    (hl : hlookup c h = some l) : l.length ≤ history_size :=
  hb (c, l) (hlookup_mem hl)

theorem truncAll_of_bounded {h : History} (hb : BoundedHist h) : truncAll h = h := by
  induction h with
  | nil => rfl
  | cons e t ih =>
    have he : e.2.length ≤ history_size := hb e (List.mem_cons_self e t)
    have ht : BoundedHist t := fun x hx => hb x (List.mem_cons_of_mem e hx)
    simp only [truncAll, List.map_cons] at ih ⊢
    rw [lastN_of_le he, ih ht]

theorem boundedHist_truncAll (h : History) : BoundedHist (truncAll h) := by
  intro e he
  rw [truncAll] at he
  obtain ⟨x, _, hx⟩ := List.mem_map.mp he
  rw [← hx]
  simp [lastN_length]

theorem hlookup_addPrices_not_mem {ps : List (String × ℚ)} {c : String}
    (hc : c ∉ ps.map Prod.fst) (h : History) :
    hlookup c (addPrices ps h) = hlookup c h := by
  induction ps generalizing h with
  | nil => rfl
  | cons e t ih =>
    obtain ⟨k, q⟩ := e
    simp only [List.map_cons, List.mem_cons] at hc
    push_neg at hc
    rw [addPrices, List.foldl_cons]
    rw [show (t.foldl (fun h cp => appendPrice h cp.1 cp.2) (appendPrice h k q))
        = addPrices t (appendPrice h k q) from rfl]
    rw [ih hc.2, hlookup_appendPrice_ne h q hc.1]

theorem hlookup_addPrices_mem {ps : List (String × ℚ)} {c : String} {b : ℚ}
    (hnd : (ps.map Prod.fst).Nodup) (hm : (c, b) ∈ ps) (h : History) :
    hlookup c (addPrices ps h) = some ((hlookup c h).getD [] ++ [b]) := by
  induction ps generalizing h with
  | nil => simp at hm
  | cons e t ih =>
    obtain ⟨k, q⟩ := e
    simp only [List.map_cons, List.nodup_cons] at hnd
    rw [addPrices, List.foldl_cons]
    rw [show (t.foldl (fun h cp => appendPrice h cp.1 cp.2) (appendPrice h k q))
        = addPrices t (appendPrice h k q) from rfl]
    rcases List.mem_cons.mp hm with heq | hmt
    · injection heq with h1 h2
      subst h1
      subst h2
      rw [hlookup_addPrices_not_mem hnd.1, hlookup_appendPrice_self]
    · have hkc : k ≠ c := fun hh => hnd.1 (List.mem_map.mpr ⟨(c, b), hmt, hh.symm⟩)
      rw [ih hnd.2 hmt, hlookup_appendPrice_ne _ _ (Ne.symm hkc)]

theorem track_ok {s : Snapshot} (h : History) (hs : HasBuy s) :
    track_price_changes s h = .ok (truncAll (addPrices (buyPairs s) h)) := by
  rw [track_price_changes, getBuys_of_hasBuy hs, except_map_ok]

theorem getBuys_error_of_missing {s : Snapshot}
    (hm : ∃ e ∈ s, rlookup "buy" e.2 = none) :
    getBuys s = .error "KeyError buy" := by
  induction s with
  | nil => simp at hm
  | cons e t ih =>
    obtain ⟨x, hx, hxn⟩ := hm
    rcases List.mem_cons.mp hx with rfl | hxt
    · rw [show getBuys (x :: t)
          = (match rlookup "buy" x.2 with
             | none => .error "KeyError buy"
             | some b => (getBuys t).map fun ps => (x.1, b) :: ps) from rfl, hxn]
    · cases hb : rlookup "buy" e.2 with
      | none =>
        rw [show getBuys (e :: t)
            = (match rlookup "buy" e.2 with
               | none => .error "KeyError buy"
               | some b => (getBuys t).map fun ps => (e.1, b) :: ps) from rfl, hb]
      | some b =>
        rw [show getBuys (e :: t)
            = (match rlookup "buy" e.2 with
               | none => .error "KeyError buy"
               | some b => (getBuys t).map fun ps => (e.1, b) :: ps) from rfl, hb,
          ih ⟨x, hxt, hxn⟩]
        rfl

theorem track_lookup_of_ok {s : Snapshot} {h h' : History}
    (hs : HasBuy s) (hnd : (s.map Prod.fst).Nodup)
    (ht : track_price_changes s h = .ok h') (c : String) :
    hlookup c h' = match buyOf c s with
      | some b => some (lastN history_size ((hlookup c h).getD [] ++ [b]))
      | none => (hlookup c h).map (lastN history_size) := by
  rw [track_ok h hs] at ht
  injection ht with ht
  subst ht
  cases hbo : buyOf c s with
  | some b =>
    rw [buyOf] at hbo
    cases hsl : slookup c s with
    | none => rw [hsl] at hbo; simp at hbo
    | some r =>
      rw [hsl, Option.some_bind] at hbo
      have hmem : (c, b) ∈ buyPairs s := mem_buyPairs (slookup_mem hsl) hbo
      have hpnd : ((buyPairs s).map Prod.fst).Nodup := by
        rw [buyPairs_fst hs]; exact hnd
      rw [hlookup_truncAll, hlookup_addPrices_mem hpnd hmem]
      rfl
  | none =>
    cases hsl : slookup c s with
    | some r =>
      exfalso
      obtain ⟨b, hb⟩ := Option.isSome_iff_exists.mp (hs (c, r) (slookup_mem hsl))
      rw [buyOf, hsl, Option.some_bind, hb] at hbo
      exact Option.noConfusion hbo
    | none =>
      have hck : c ∉ (buyPairs s).map Prod.fst := by
        rw [buyPairs_fst hs]
        exact slookup_eq_none_iff.mp hsl
      rw [hlookup_truncAll, hlookup_addPrices_not_mem hck]

theorem track_lookup_some {s : Snapshot} {h h' : History} {c : String} {b : ℚ}
    (hs : HasBuy s) (hnd : (s.map Prod.fst).Nodup)
    (ht : track_price_changes s h = .ok h') (hbo : buyOf c s = some b) :
    hlookup c h' = some (lastN history_size ((hlookup c h).getD [] ++ [b])) := by
  rw [track_lookup_of_ok hs hnd ht c, hbo]

theorem track_lookup_none {s : Snapshot} {h h' : History} {c : String}
    (hs : HasBuy s) (hnd : (s.map Prod.fst).Nodup)
    (ht : track_price_changes s h = .ok h') (hbo : buyOf c s = none) :
    hlookup c h' = (hlookup c h).map (lastN history_size) := by
  rw [track_lookup_of_ok hs hnd ht c, hbo]

theorem runTrack_extend (snaps : List Snapshot) (h : History)
    (hw : ∀ s ∈ snaps, HasBuy s ∧ (s.map Prod.fst).Nodup) (hb : BoundedHist h) :
    ∃ h', runTrack snaps h = .ok h' ∧ BoundedHist h' ∧
      ∀ c, hlookup c h' =
        if allBuys c snaps = [] then hlookup c h
        else some (lastN history_size ((hlookup c h).getD [] ++ allBuys c snaps)) := by
  induction snaps generalizing h with
  | nil =>
    exact ⟨h, rfl, hb, fun c => by simp [allBuys]⟩
  | cons s ss ih =>
    have hws := hw s (List.mem_cons_self s ss)
    have hwss : ∀ x ∈ ss, HasBuy x ∧ (x.map Prod.fst).Nodup :=
      fun x hx => hw x (List.mem_cons_of_mem s hx)
    have htrack := track_ok h hws.1
    obtain ⟨h', hrun, hb', hlook⟩ :=
      ih (truncAll (addPrices (buyPairs s) h)) hwss (boundedHist_truncAll _)
    refine ⟨h', ?_, hb', ?_⟩
    · rw [runTrack, htrack, except_ok_bind, hrun]
    · intro c
      have hstep := track_lookup_of_ok hws.1 hws.2 htrack c
      rw [hlook c]
      cases hbo : buyOf c s with
      | some b =>
        have h1 : hlookup c (truncAll (addPrices (buyPairs s) h))
            = some (lastN history_size ((hlookup c h).getD [] ++ [b])) := by
          rw [hstep, hbo]
        rw [h1]
        simp only [allBuys, List.filterMap_cons, hbo]
        by_cases hbs : List.filterMap (buyOf c) ss = []
        · simp [hbs]
        · simp only [hbs, if_neg hbs, List.cons_ne_nil, if_neg (List.cons_ne_nil b _),
            Option.getD_some]
          rw [lastN_append_left, List.append_assoc]
          rfl
      | none =>
        have h1 : hlookup c (truncAll (addPrices (buyPairs s) h)) = hlookup c h := by
          rw [hstep, hbo]
          cases ho : hlookup c h with
          | none => rfl
          | some l => simp [lastN_of_le (boundedHist_lookup hb ho)]
        rw [h1]
        simp only [allBuys, List.filterMap_cons, hbo]

theorem allBuys_length (c : String) (snaps : List Snapshot)
    (hw : ∀ s ∈ snaps, HasBuy s) :
    (allBuys c snaps).length = snaps.countP fun s => (slookup c s).isSome := by
  induction snaps with
  | nil => rfl
  | cons s ss ih =>
    have hws := hw s (List.mem_cons_self s ss)
    have ihs := ih fun x hx => hw x (List.mem_cons_of_mem s hx)
    rw [allBuys, List.filterMap_cons, List.countP_cons]
    cases hbo : buyOf c s with
    | some b =>
      have hsl : (slookup c s).isSome = true := by
        rw [buyOf] at hbo
        cases hq : slookup c s with
        | none => rw [hq] at hbo; simp at hbo
        | some r => rfl
      simp only [List.length_cons, hsl, if_pos]
      rw [← allBuys, ihs]
    | none =>
      have hsl : (slookup c s).isSome = false := by
        cases hq : slookup c s with
        | none => rfl
        | some r =>
          obtain ⟨b, hb⟩ := Option.isSome_iff_exists.mp (hws (c, r) (slookup_mem hq))
          rw [buyOf, hq, Option.some_bind, hb] at hbo
          exact Option.noConfusion hbo
      rw [← allBuys, ihs]
      simp [hsl]

/-- C3: feeding snapshots to `track_price_changes` in order from the empty
history gives each currency exactly the last (up to) 5 buy values seen for
it, in chronological order, with history length
`min (number of snapshots containing the currency) 5`. -/
theorem runTrack_rolling_history (snaps : List Snapshot)
    (hw : ∀ s ∈ snaps, HasBuy s ∧ (s.map Prod.fst).Nodup) :
    ∃ h', runTrack snaps [] = .ok h' ∧
      (∀ c, hlookup c h' =
        if allBuys c snaps = [] then none
        else some (lastN history_size (allBuys c snaps))) ∧
      (∀ c l, hlookup c h' = some l →
        l.length = min (snaps.countP fun s => (slookup c s).isSome) history_size) := by
  obtain ⟨h', hrun, hb', hlook⟩ :=
    runTrack_extend snaps [] hw (by intro e he; simp at he)
  have hchar : ∀ c, hlookup c h' =
      if allBuys c snaps = [] then none
      else some (lastN history_size (allBuys c snaps)) := by
    intro c
    rw [hlook c]
    by_cases hbs : allBuys c snaps = [] <;> simp [hbs]
  refine ⟨h', hrun, hchar, ?_⟩
  intro c l hl
  rw [hchar c] at hl
  by_cases hbs : allBuys c snaps = []
  · rw [if_pos hbs] at hl
    exact Option.noConfusion hl
  · rw [if_neg hbs] at hl
    injection hl with hl
    rw [← hl, lastN_length, ← allBuys_length c snaps (fun x hx => (hw x hx).1)]
    omega

/-- Witness for C3: six consecutive snapshots reporting "USD" buy values
1,...,6 from the empty history; in particular the final history for "USD" is
`[2, 3, 4, 5, 6]` (the oldest entry 1 evicted). -/
theorem runTrack_rolling_history_witness :
    (∃ h', runTrack [[("USD", [("buy", (1 : ℚ))])], [("USD", [("buy", (2 : ℚ))])],
        [("USD", [("buy", (3 : ℚ))])], [("USD", [("buy", (4 : ℚ))])],
        [("USD", [("buy", (5 : ℚ))])], [("USD", [("buy", (6 : ℚ))])]] [] = .ok h' ∧
      (∀ c, hlookup c h' =
        if allBuys c [[("USD", [("buy", (1 : ℚ))])], [("USD", [("buy", (2 : ℚ))])],
            [("USD", [("buy", (3 : ℚ))])], [("USD", [("buy", (4 : ℚ))])],
            [("USD", [("buy", (5 : ℚ))])], [("USD", [("buy", (6 : ℚ))])]] = [] then none
        else some (lastN history_size (allBuys c [[("USD", [("buy", (1 : ℚ))])],
            [("USD", [("buy", (2 : ℚ))])], [("USD", [("buy", (3 : ℚ))])],
            [("USD", [("buy", (4 : ℚ))])], [("USD", [("buy", (5 : ℚ))])],
            [("USD", [("buy", (6 : ℚ))])]]))) ∧
      (∀ c l, hlookup c h' = some l →
        l.length = min ([[("USD", [("buy", (1 : ℚ))])], [("USD", [("buy", (2 : ℚ))])],
            [("USD", [("buy", (3 : ℚ))])], [("USD", [("buy", (4 : ℚ))])],
            [("USD", [("buy", (5 : ℚ))])],
            [("USD", [("buy", (6 : ℚ))])]].countP fun s => (slookup c s).isSome)
          history_size)) ∧
    runTrack [[("USD", [("buy", (1 : ℚ))])], [("USD", [("buy", (2 : ℚ))])],
        [("USD", [("buy", (3 : ℚ))])], [("USD", [("buy", (4 : ℚ))])],
        [("USD", [("buy", (5 : ℚ))])], [("USD", [("buy", (6 : ℚ))])]] []
      = .ok [("USD", [(2 : ℚ), 3, 4, 5, 6])] :=
  ⟨runTrack_rolling_history _ (by decide), rfl⟩

/-- C2: on every call `track_price_changes snap h = .ok h'` (arbitrary
pre-state `h`), each currency present in the snapshot gets an entry in `h'`
whose last element is that snapshot's buy price for it, and every sequence in
`h'` has length at most `history_size = 5` — so the invariant is preserved by
every call. -/
theorem track_invariant_last_and_bound (s : Snapshot) (h h' : History)
    (hs : HasBuy s) (hnd : (s.map Prod.fst).Nodup)
    (ht : track_price_changes s h = .ok h') :
    (∀ c b, buyOf c s = some b →
      ∃ l, hlookup c h' = some l ∧ l.getLast? = some b) ∧ BoundedHist h' := by
  constructor
  · intro c b hbo
    have hstep := track_lookup_of_ok hs hnd ht c
    refine ⟨lastN history_size ((hlookup c h).getD [] ++ [b]), ?_, ?_⟩
    · rw [hstep, hbo]
    · rw [getLast?_lastN (by decide) (by simp)]
      simp
  · rw [track_ok h hs] at ht
    injection ht with ht
    rw [← ht]
    exact boundedHist_truncAll _

/-- Witness for C2 at the snapshot `{"USD": {"buy": 3}}` and the empty
history: the resulting history ends in 3 for "USD" and is bounded. -/
theorem track_invariant_last_and_bound_witness :
    (∀ c b, buyOf c [("USD", [("buy", (3 : ℚ))])] = some b →
      ∃ l, hlookup c [("USD", [(3 : ℚ)])] = some l ∧ l.getLast? = some b) ∧
    BoundedHist [("USD", [(3 : ℚ)])] :=
  track_invariant_last_and_bound [("USD", [("buy", 3)])] [] [("USD", [3])]
    (by decide) (by decide) rfl

/-- C4: a currency absent from the current snapshot still has its history
truncated to the last 5 entries on the call, and nothing is appended to it. -/
theorem track_truncates_absent_currencies (s : Snapshot) (h h' : History) (c : String)
    (hs : HasBuy s) (hc : c ∉ s.map Prod.fst)
    (ht : track_price_changes s h = .ok h') :
    hlookup c h' = (hlookup c h).map (lastN history_size) := by
  rw [track_ok h hs] at ht
  injection ht with ht
  rw [← ht, hlookup_truncAll, hlookup_addPrices_not_mem (by rw [buyPairs_fst hs]; exact hc)]

/-- Witness for C4: "BTC" is absent from the snapshot `{"USD": {"buy": 7}}`,
its 6-entry history is trimmed to the last 5 entries and nothing is appended. -/
theorem track_truncates_absent_currencies_witness :
    hlookup "BTC" [("BTC", [(2 : ℚ), 3, 4, 5, 6]), ("USD", [(7 : ℚ)])]
      = (hlookup "BTC" [("BTC", [(1 : ℚ), 2, 3, 4, 5, 6])]).map (lastN history_size) :=
  track_truncates_absent_currencies [("USD", [("buy", 7)])]
    [("BTC", [1, 2, 3, 4, 5, 6])] [("BTC", [2, 3, 4, 5, 6]), ("USD", [7])] "BTC"
    (by decide) (by decide) rfl

/-- C5: feeding the same snapshot to `track_price_changes` twice in a row
appends the currency's buy price twice, and the resulting history is two
entries longer than before the two calls, capped at 5 — no deduplication. -/
theorem track_not_deduplicated (s : Snapshot) (h h₁ h₂ : History) (c : String) (b : ℚ)
    (hs : HasBuy s) (hnd : (s.map Prod.fst).Nodup) (hbo : buyOf c s = some b)
    (t1 : track_price_changes s h = .ok h₁) (t2 : track_price_changes s h₁ = .ok h₂) :
    hlookup c h₂ = some (lastN history_size ((hlookup c h).getD [] ++ [b, b])) ∧
    ∀ l, hlookup c h₂ = some l →
      l.length = min (((hlookup c h).getD []).length + 2) history_size := by
  have e1 : hlookup c h₁ = some (lastN history_size ((hlookup c h).getD [] ++ [b])) :=
    track_lookup_some hs hnd t1 hbo
  have e2 : hlookup c h₂
      = some (lastN history_size ((hlookup c h).getD [] ++ [b, b])) := by
    rw [track_lookup_some hs hnd t2 hbo, e1, Option.getD_some, lastN_append_left,
      List.append_assoc]
    rfl
  refine ⟨e2, fun l hl => ?_⟩
  rw [e2] at hl
  injection hl with hl
  rw [← hl, lastN_length]
  simp only [List.length_append, List.length_cons, List.length_nil]
  omega

/-- Witness for C5: tracking `{"USD": {"buy": 9}}` twice from the empty
history yields the two-entry history `[9, 9]` for "USD". -/
theorem track_not_deduplicated_witness :
    hlookup "USD" [("USD", [(9 : ℚ), 9])]
      = some (lastN history_size ((hlookup "USD" ([] : History)).getD [] ++ [9, 9])) ∧
    ∀ l, hlookup "USD" [("USD", [(9 : ℚ), 9])] = some l →
      l.length = min (((hlookup "USD" ([] : History)).getD []).length + 2) history_size :=
  track_not_deduplicated [("USD", [("buy", 9)])] [] [("USD", [9])] [("USD", [9, 9])]
    "USD" 9 (by decide) (by decide) rfl rfl rfl

/-- C10: calling `track_price_changes` with an empty snapshot on a history
map whose sequences all have length at most 5 returns the history unchanged:
nothing is appended and the truncation is the identity. -/
theorem track_empty_snapshot_identity (h : History) (hb : BoundedHist h) :
    track_price_changes [] h = .ok h := by
  rw [show track_price_changes [] h = .ok (truncAll (addPrices [] h)) from rfl,
    show addPrices [] h = h from rfl, truncAll_of_bounded hb]

/-- Witness for C10: an empty snapshot leaves a bounded two-currency history
untouched. -/
theorem track_empty_snapshot_identity_witness :
    track_price_changes [] [("USD", [(1 : ℚ), 2, 3, 4, 5]), ("EUR", [(9 : ℚ)])]
      = .ok [("USD", [(1 : ℚ), 2, 3, 4, 5]), ("EUR", [(9 : ℚ)])] :=
  track_empty_snapshot_identity [("USD", [1, 2, 3, 4, 5]), ("EUR", [9])] (by decide)

theorem buyPairs_snd_eq {s : Snapshot} (hs : HasBuy s) :
    (buyPairs s).map Prod.snd = s.map fun e => (rlookup "buy" e.2).getD 0 := by
  induction s with
  | nil => rfl
  | cons e t ih =>
    obtain ⟨b, hb⟩ := Option.isSome_iff_exists.mp (hs e (List.mem_cons_self e t))
    have ht : HasBuy t := fun x hx => hs x (List.mem_cons_of_mem e hx)
    simp [buyPairs, List.filterMap_cons, hb] at ih ⊢
    exact ih ht

/-- C1: for every non-empty snapshot whose records all carry `buy`,
`calculate_statistics` succeeds and reports the arithmetic mean of all `buy`
values, the midpoint-of-a-sorted-permutation median (average of two central
values for even length), and the population variance — the sum of squared
deviations from the mean divided by N (not N−1) — whose square root `np.std`
prints. -/
theorem calculate_statistics_matches_spec (snap : Snapshot)
    (hne : snap ≠ []) (hs : HasBuy snap) :
    ∃ st : Stats, calculate_statistics snap = .ok st ∧
      (buyPairs snap).map Prod.snd = snap.map (fun e => (rlookup "buy" e.2).getD 0) ∧
      st.mean = ((buyPairs snap).map Prod.snd).sum / ((buyPairs snap).map Prod.snd).length ∧
      (∃ sorted : List ℚ, sorted.Sorted (· ≤ ·) ∧
        sorted.Perm ((buyPairs snap).map Prod.snd) ∧ st.median = middleOf sorted) ∧
      st.var = (((buyPairs snap).map Prod.snd).map fun x =>
          (x - ((buyPairs snap).map Prod.snd).sum / ((buyPairs snap).map Prod.snd).length) ^ 2).sum
        / ((buyPairs snap).map Prod.snd).length := by
  have hok : calculate_statistics snap
      = .ok ⟨npMean ((buyPairs snap).map Prod.snd), npMedian ((buyPairs snap).map Prod.snd),
          npVar ((buyPairs snap).map Prod.snd)⟩ := by
    rw [calculate_statistics, getBuys_of_hasBuy hs, except_map_ok]
  refine ⟨_, hok, buyPairs_snd_eq hs, rfl,
    ⟨((buyPairs snap).map Prod.snd).insertionSort (· ≤ ·),
      List.sorted_insertionSort _ _, List.perm_insertionSort _ _, rfl⟩, ?_⟩
  show npVar ((buyPairs snap).map Prod.snd) = _
  rw [npVar, npMean, npMean]
  simp only [List.length_map]

/-- Witness for C1 at the snapshot `{"USD": {"buy": 10}, "EUR": {"buy": 20}}`:
mean 15, median 15, and variance 25 = ((10−15)² + (20−15)²)/2, the population
variant (standard deviation 5). -/
theorem calculate_statistics_matches_spec_witness :
    (∃ st : Stats,
      calculate_statistics [("USD", [("buy", (10 : ℚ))]), ("EUR", [("buy", (20 : ℚ))])]
        = .ok st ∧
      (buyPairs [("USD", [("buy", (10 : ℚ))]), ("EUR", [("buy", (20 : ℚ))])]).map Prod.snd
        = ([("USD", [("buy", (10 : ℚ))]), ("EUR", [("buy", (20 : ℚ))])] : Snapshot).map
            (fun e => (rlookup "buy" e.2).getD 0) ∧
      st.mean
        = ((buyPairs [("USD", [("buy", (10 : ℚ))]), ("EUR", [("buy", (20 : ℚ))])]).map
              Prod.snd).sum
          / ((buyPairs [("USD", [("buy", (10 : ℚ))]), ("EUR", [("buy", (20 : ℚ))])]).map
              Prod.snd).length ∧
      (∃ sorted : List ℚ, sorted.Sorted (· ≤ ·) ∧
        sorted.Perm ((buyPairs [("USD", [("buy", (10 : ℚ))]),
            ("EUR", [("buy", (20 : ℚ))])]).map Prod.snd) ∧
        st.median = middleOf sorted) ∧
      st.var = (((buyPairs [("USD", [("buy", (10 : ℚ))]), ("EUR", [("buy", (20 : ℚ))])]).map
              Prod.snd).map fun x =>
            (x - ((buyPairs [("USD", [("buy", (10 : ℚ))]), ("EUR", [("buy", (20 : ℚ))])]).map
                  Prod.snd).sum
              / ((buyPairs [("USD", [("buy", (10 : ℚ))]), ("EUR", [("buy", (20 : ℚ))])]).map
                  Prod.snd).length) ^ 2).sum
        / ((buyPairs [("USD", [("buy", (10 : ℚ))]), ("EUR", [("buy", (20 : ℚ))])]).map
            Prod.snd).length) ∧
    calculate_statistics [("USD", [("buy", (10 : ℚ))]), ("EUR", [("buy", (20 : ℚ))])]
      = .ok ⟨15, 15, 25⟩ :=
  ⟨calculate_statistics_matches_spec [("USD", [("buy", 10)]), ("EUR", [("buy", 20)])]
      (by simp) (by decide),
    by norm_num [calculate_statistics, getBuys, npMean, npMedian, npVar, middleOf,
      List.insertionSort, List.orderedInsert, Stats.mk.injEq]⟩

/-! Poll-loop reduction lemmas. -/

theorem pollStep_200_some (snap : Snapshot) (h : History) :
    pollStep ⟨200, some snap⟩ h
      = calculate_statistics snap >>= fun st => track_price_changes snap h >>= fun h' =>
          .ok (h', [.delim, .newData snap, .delim, .statsReport st, .trendReport h',
            .slept 10]) := rfl

theorem pollStep_200_none (h : History) :
    pollStep ⟨200, none⟩ h = .error "JSONDecodeError" := rfl

/-- C6: the claim that both branches of the poll loop sleep 10 seconds before
the next fetch fails on the code: `time.sleep(10)` sits inside the success
branch only (line 70), so the failure branch's event trace carries no sleep —
it re-fetches immediately — while the success branch's trace ends in
`slept 10`.  Evaluated here at a 500 response and at a well-formed 200
response from the empty history. -/
theorem poll_error_branch_skips_sleep :
    pollStep ⟨500, none⟩ [] = .ok ([], [.errorReport 500]) ∧
    Event.slept 10 ∉ [Event.errorReport 500] ∧
    pollStep ⟨200, some [("USD", [("buy", (100 : ℚ))])]⟩ []
      = .ok ([("USD", [(100 : ℚ)])],
          [.delim, .newData [("USD", [("buy", (100 : ℚ))])], .delim,
           .statsReport ⟨100, 100, 0⟩, .trendReport [("USD", [(100 : ℚ)])], .slept 10]) := by
  refine ⟨by norm_num [pollStep], by simp, ?_⟩
  norm_num [pollStep, calculate_statistics, getBuys, npMean, npMedian, npVar, middleOf,
    List.insertionSort, List.orderedInsert, track_price_changes, truncAll, addPrices,
    appendPrice, lastN, history_size, Stats.mk.injEq]

/-- C7: on a non-200 response the loop prints the status code, computes no
statistics, leaves the history untouched, and no exception escapes: the run
continues with the next cycle exactly as it would have from the same state. -/
theorem poll_fetch_failure_recovered (r : Response) (h : History) (rest : List Response)
    (hr : r.status ≠ 200) :
    pollStep r h = .ok (h, [.errorReport r.status]) ∧
    runPoll (r :: rest) h
      = (runPoll rest h).map fun p => (p.1, Event.errorReport r.status :: p.2) := by
  have hstep : pollStep r h = .ok (h, [.errorReport r.status]) := by
    rw [pollStep, if_neg hr]
  refine ⟨hstep, ?_⟩
  rw [runPoll, hstep, except_ok_bind]
  show (runPoll rest h >>= fun q => Except.ok (q.1, Event.errorReport r.status :: q.2)) = _
  cases hrp : runPoll rest h with
  | error e => rfl
  | ok p => rfl

/-- Witness for C7 at a 500 response followed by one more poll cycle. -/
theorem poll_fetch_failure_recovered_witness :
    pollStep ⟨500, none⟩ [] = .ok ([], [.errorReport 500]) ∧
    runPoll [⟨500, none⟩, ⟨404, none⟩] []
      = (runPoll [⟨404, none⟩] []).map fun p => (p.1, Event.errorReport 500 :: p.2) :=
  poll_fetch_failure_recovered ⟨500, none⟩ [] [⟨404, none⟩] (by decide)

/-- C8: a 200 response whose body is not valid JSON, or whose snapshot has a
record without the `buy` field, is not handled: the fault escapes
`calculate_statistics` and the whole poll loop as an error, aborting the run
(the process terminates). -/
theorem poll_malformed_body_fatal (r : Response) (h : History) (rest : List Response)
    (hst : r.status = 200) :
    (r.body = none → runPoll (r :: rest) h = .error "JSONDecodeError") ∧
    (∀ snap, r.body = some snap → (∃ e ∈ snap, rlookup "buy" e.2 = none) →
      calculate_statistics snap = .error "KeyError buy" ∧
      runPoll (r :: rest) h = .error "KeyError buy") := by
  obtain ⟨st, bd⟩ := r
  simp only at hst
  subst hst
  constructor
  · intro hb
    simp only at hb
    subst hb
    rw [runPoll, pollStep_200_none, except_error_bind]
  · intro snap hb hmiss
    simp only at hb
    subst hb
    have hcs : calculate_statistics snap = .error "KeyError buy" := by
      rw [calculate_statistics, getBuys_error_of_missing hmiss, except_map_error]
    refine ⟨hcs, ?_⟩
    rw [runPoll, pollStep_200_some, hcs, except_error_bind, except_error_bind]

/-- Witness for C8: a 200 response whose only record lacks `buy` aborts the
run with the `KeyError`. -/
theorem poll_malformed_body_fatal_witness :
    ((⟨200, some [("USD", [("sell", (99 : ℚ))])]⟩ : Response).body = none →
      runPoll [⟨200, some [("USD", [("sell", (99 : ℚ))])]⟩] [] = .error "JSONDecodeError") ∧
    (∀ snap, (⟨200, some [("USD", [("sell", (99 : ℚ))])]⟩ : Response).body = some snap →
      (∃ e ∈ snap, rlookup "buy" e.2 = none) →
      calculate_statistics snap = .error "KeyError buy" ∧
      runPoll [⟨200, some [("USD", [("sell", (99 : ℚ))])]⟩] [] = .error "KeyError buy") :=
  poll_malformed_body_fatal ⟨200, some [("USD", [("sell", 99)])]⟩ [] [] rfl

theorem pollStepProg_module_prices (r : Response) (s u : ProgState)
    (hu : pollStepProg r s = .ok u) : u.module_prices = s.module_prices := by
  rw [pollStepProg] at hu
  cases hps : pollStep r s.local_prices with
  | error e =>
    rw [hps, except_map_error] at hu
    exact Except.noConfusion hu
  | ok p =>
    rw [hps, except_map_ok] at hu
    injection hu with hu
    rw [← hu]

theorem runProg_module_prices (rs : List Response) (t : ProgState) :
    ∀ s, runProg rs s = .ok t → t.module_prices = s.module_prices := by
  induction rs with
  | nil =>
    intro s h
    injection h with h
    rw [← h]
  | cons r rest ih =>
    intro s h
    rw [runProg] at h
    cases hps : pollStepProg r s with
    | error e =>
      rw [hps, except_error_bind] at h
      exact Except.noConfusion h
    | ok u =>
      rw [hps, except_ok_bind] at h
      rw [ih u h, pollStepProg_module_prices r s u hps]

/-- C9: `poll_api` reads and writes only its function-local history map; the
module-level `prices_over_time` dictionary is never written by any poll
iteration and is still empty (its initial value) after any run. -/
theorem poll_module_history_untouched (rs : List Response) (t : ProgState)
    (hr : runProgram rs = .ok t) :
    t.module_prices = prices_over_time ∧ t.module_prices = [] ∧
    ∀ r s u, pollStepProg r s = .ok u → u.module_prices = s.module_prices :=
  ⟨runProg_module_prices rs t _ hr, runProg_module_prices rs t _ hr,
    pollStepProg_module_prices⟩

/-- Witness for C9: one failed poll cycle; the module-level map is still
empty afterwards. -/
theorem poll_module_history_untouched_witness :
    (ProgState.mk [] [] [Event.errorReport 500]).module_prices = prices_over_time ∧
    (ProgState.mk [] [] [Event.errorReport 500]).module_prices = [] ∧
    ∀ r s u, pollStepProg r s = .ok u → u.module_prices = s.module_prices :=
  poll_module_history_untouched [⟨500, none⟩] ⟨[], [], [.errorReport 500]⟩ rfl

end RTDA
